import Mathlib

/-!
Verification development for the getrel repository (release/asset resolution
and installation-action engine).  The definitions below are shallow embeddings
of the Python source under src/: pure functions become Lean functions, paths
become explicit component lists, the filesystem and the HTTP layer become
explicit state values, and fallible operations return Option.  Each claim of
the specification is settled by a theorem about these definitions.
-/

namespace Getrel

/-! ## Stable descending insertion sort

Python's `sorted(xs, key=len(parts), reverse=True)` is a stable sort that puts
larger keys first and keeps the original order of equal keys.  `delete`
(src/getrel/project.py:290) and `uninstall` (src/getrel/project.py:513) both
use it to process deepest paths first. -/

/-- Insert `x` into `l`, placing it before the first element whose key is
strictly smaller (so equal keys keep the earlier element first). -/
def insertDesc (key : α → Nat) (x : α) : List α → List α
  | [] => [x]
  | y :: ys => if key y ≤ key x then x :: y :: ys else y :: insertDesc key x ys

/-- Stable sort by `key`, largest first, mirroring `sorted(-, key, reverse=True)`. -/
def sortDescBy (key : α → Nat) : List α → List α
  | [] => []
  | x :: xs => insertDesc key x (sortDescBy key xs)

theorem insertDesc_perm (key : α → Nat) (x : α) (l : List α) :
    (insertDesc key x l).Perm (x :: l) := by
  induction l with
  | nil => simp [insertDesc]
  | cons y ys ih =>
    simp only [insertDesc]
    split
    · exact List.Perm.refl _
    · exact ((ih.cons y).trans (List.Perm.swap x y ys)).symm.symm

theorem sortDescBy_perm (key : α → Nat) (l : List α) :
    (sortDescBy key l).Perm l := by
  induction l with
  | nil => simp [sortDescBy]
  | cons x xs ih =>
    exact (insertDesc_perm key x (sortDescBy key xs)).trans (ih.cons x)

theorem mem_sortDescBy {key : α → Nat} {l : List α} {a : α} :
    a ∈ sortDescBy key l ↔ a ∈ l :=
  (sortDescBy_perm key l).mem_iff

theorem insertDesc_pairwise {key : α → Nat} {x : α} {l : List α}
    (h : l.Pairwise (fun a b => key b ≤ key a)) :
    (insertDesc key x l).Pairwise (fun a b => key b ≤ key a) := by
  induction l with
  | nil => simp [insertDesc]
  | cons y ys ih =>
    simp only [insertDesc]
    split
    · rename_i hxy
      refine List.Pairwise.cons ?_ h
      intro b hb
      rcases List.mem_cons.mp hb with rfl | hb'
      · exact hxy
      · exact le_trans ((List.pairwise_cons.mp h).1 b hb') hxy
    · rename_i hxy
      have hylt : key x ≤ key y := le_of_lt (Nat.lt_of_not_le hxy)
      refine List.Pairwise.cons ?_ (ih (List.pairwise_cons.mp h).2)
      intro b hb
      have hmem := (insertDesc_perm key x ys).mem_iff.mp hb
      rcases List.mem_cons.mp hmem with rfl | hb'
      · exact hylt
      · exact (List.pairwise_cons.mp h).1 b hb'

theorem sortDescBy_pairwise (key : α → Nat) (l : List α) :
    (sortDescBy key l).Pairwise (fun a b => key b ≤ key a) := by
  induction l with
  | nil => simp [sortDescBy]
  | cons x xs ih => exact insertDesc_pairwise ih

/-! ## Glob matching (`fnmatch.fnmatch` on POSIX)

Faithful recursive presentation of the regular expression produced by
`fnmatch.translate`: `*` matches any character sequence, `?` any single
character, `[...]` a character class with `!` negation, a leading `]` taken
literally, `a-b` ranges (an inverted range matches nothing), and an
unterminated `[` taken as a literal bracket.  On POSIX `os.path.normcase` is
the identity, so no case folding happens. -/

/-- One member of a character class: a literal or an inclusive range. -/
inductive ClassItem where
  | single (c : Char)
  | range (lo hi : Char)
deriving DecidableEq, Repr

/-- Scan up to the closing `]` of a character class, returning the scanned
body and the remainder of the pattern; `none` when no `]` follows. -/
def scanClass : List Char → Option (List Char × List Char)
  | [] => none
  | c :: t =>
    if c = ']' then some ([], t)
    else (scanClass t).map (fun p => (c :: p.1, p.2))

/-- Split the part of the pattern following `[` into the class body and the
remainder after the closing `]`; `none` when the class is unterminated.  As in
`fnmatch.translate`, a leading `!` and a `]` right after it belong to the body
rather than terminating the class. -/
def splitClass : List Char → Option (List Char × List Char)
  | [] => none
  | c :: t =>
    if c = '!' then
      match t with
      | ']' :: u => (scanClass u).map (fun p => ('!' :: ']' :: p.1, p.2))
      | _ => (scanClass t).map (fun p => ('!' :: p.1, p.2))
    else if c = ']' then (scanClass t).map (fun p => (']' :: p.1, p.2))
    else scanClass (c :: t)

theorem scanClass_rest_lt {l stuff rest : List Char}
    (h : scanClass l = some (stuff, rest)) : rest.length < l.length := by
  induction l generalizing stuff rest with
  | nil => simp [scanClass] at h
  | cons c t ih =>
    simp only [scanClass] at h
    split at h
    · simp only [Option.some.injEq, Prod.mk.injEq] at h
      rw [← h.2]
      simp
    · rcases Option.map_eq_some'.mp h with ⟨⟨p1, p2⟩, hp, hfp⟩
      have hlt := ih hp
      have hr : rest = p2 := by
        have := congrArg Prod.snd hfp
        simpa using this.symm
      rw [hr]
      simp only [List.length_cons]
      omega

theorem splitClass_rest_lt {l stuff rest : List Char}
    (h : splitClass l = some (stuff, rest)) : rest.length < l.length := by
  rcases l with _ | ⟨c, t⟩
  · simp [splitClass] at h
  · simp only [splitClass] at h
    split at h
    · rcases t with _ | ⟨d, u⟩
      · simp [scanClass] at h
      · by_cases hd : d = ']'
        · subst hd
          simp only at h
          rcases Option.map_eq_some'.mp h with ⟨⟨p1, p2⟩, hp, hfp⟩
          have hlt := scanClass_rest_lt hp
          have hr : rest = p2 := by
            have := congrArg Prod.snd hfp
            simpa using this.symm
          rw [hr]
          simp only [List.length_cons] at hlt ⊢
          omega
        · have hmatch : (match (d :: u : List Char) with
              | ']' :: u => (scanClass u).map (fun p => ('!' :: ']' :: p.1, p.2))
              | _ => (scanClass (d :: u)).map (fun p => ('!' :: p.1, p.2)))
              = (scanClass (d :: u)).map (fun p => ('!' :: p.1, p.2)) := by
            rcases hdd : (d :: u : List Char) with _ | ⟨d', u'⟩
            · simp at hdd
            · cases hdd
              simp [hd]
          rw [hmatch] at h
          rcases Option.map_eq_some'.mp h with ⟨⟨p1, p2⟩, hp, hfp⟩
          have hlt := scanClass_rest_lt hp
          have hr : rest = p2 := by
            have := congrArg Prod.snd hfp
            simpa using this.symm
          rw [hr]
          simp only [List.length_cons] at hlt ⊢
          omega
    · split at h
      · rcases Option.map_eq_some'.mp h with ⟨⟨p1, p2⟩, hp, hfp⟩
        have hlt := scanClass_rest_lt hp
        have hr : rest = p2 := by
          have := congrArg Prod.snd hfp
          simpa using this.symm
        rw [hr]
        simp only [List.length_cons]
        omega
      · exact scanClass_rest_lt h

/-- Parse a class body into literal and range members.  A `-` that has no
character on both sides stays literal, as in `fnmatch.translate`. -/
def parseItems : List Char → List ClassItem
  | a :: '-' :: b :: rest => .range a b :: parseItems rest
  | a :: rest => .single a :: parseItems rest
  | [] => []

/-- Does one class member accept character `c`?  An inverted range (`z-a`)
accepts nothing, which is how `fnmatch.translate` treats empty ranges. -/
def itemAccepts (c : Char) : ClassItem → Bool
  | .single a => c = a
  | .range lo hi => lo ≤ c && c ≤ hi

/-- Does the class body (as returned by `splitClass`, with a leading `!`
meaning negation) accept character `c`? -/
def classAccepts (stuff : List Char) (c : Char) : Bool :=
  match stuff with
  | '!' :: items => !((parseItems items).any (itemAccepts c))
  | items => (parseItems items).any (itemAccepts c)

/-- Embedding of `fnmatch.fnmatch(name, pattern)` on POSIX, on character
lists: `*` matches any sequence, `?` one character, `[...]` a class, an
unterminated `[` a literal bracket, any other character itself.  The whole
name must match (the translated regex is anchored with a fullmatch).  The
recursion is driven by a fuel counter so that the definition is structural
(and hence computable by the kernel); every recursive call strictly decreases
`s.length + p.length`, so any fuel above that bound gives the fixpoint
(`globMatchF_congr` below). -/
def globMatchF : Nat → List Char → List Char → Bool
  | 0, _, _ => false
  | fuel + 1, s, p =>
    match p with
    | [] => s.isEmpty
    | c :: pt =>
      if c = '*' then
        globMatchF fuel s pt ||
          (match s with
           | [] => false
           | _ :: st => globMatchF fuel st p)
      else if c = '?' then
        match s with
        | [] => false
        | _ :: st => globMatchF fuel st pt
      else if c = '[' then
        match splitClass pt with
        | some (stuff, rest) =>
          (match s with
           | [] => false
           | d :: st => classAccepts stuff d && globMatchF fuel st rest)
        | none =>
          (match s with
           | [] => false
           | d :: st => d = '[' && globMatchF fuel st pt)
      else
        match s with
        | [] => false
        | d :: st => d = c && globMatchF fuel st pt

/-- Any two sufficient fuels give the same answer, so `fnmatch` below really
computes the fixpoint of the recursion. -/
theorem globMatchF_congr : ∀ f g s p, s.length + p.length < f →
    s.length + p.length < g → globMatchF f s p = globMatchF g s p := by
  intro f
  induction f with
  | zero => intro g s p hf; omega
  | succ n ih =>
    intro g s p hf hg
    rcases g with _ | m
    · omega
    rcases p with _ | ⟨c, pt⟩
    · simp [globMatchF]
    by_cases hstar : c = '*'
    · subst hstar
      rcases s with _ | ⟨d, st⟩
      · have h1 : globMatchF n [] pt = globMatchF m [] pt := by
          apply ih <;> (simp only [List.length_cons, List.length_nil] at hf hg ⊢; omega)
        simp [globMatchF, h1]
      · have h1 : globMatchF n (d :: st) pt = globMatchF m (d :: st) pt := by
          apply ih <;> (simp only [List.length_cons] at hf hg ⊢; omega)
        have h2 : globMatchF n st ('*' :: pt) = globMatchF m st ('*' :: pt) := by
          apply ih <;> (simp only [List.length_cons] at hf hg ⊢; omega)
        simp [globMatchF, h1, h2]
    · by_cases hq : c = '?'
      · subst hq
        rcases s with _ | ⟨d, st⟩
        · simp [globMatchF]
        · have h1 : globMatchF n st pt = globMatchF m st pt := by
            apply ih <;> (simp only [List.length_cons] at hf hg ⊢; omega)
          simp [globMatchF, h1]
      · by_cases hbr : c = '['
        · subst hbr
          rcases hsp : splitClass pt with _ | ⟨stuff, rest⟩
          · rcases s with _ | ⟨d, st⟩
            · simp [globMatchF, hsp]
            · have h3 : globMatchF n st pt = globMatchF m st pt := by
                apply ih <;> (simp only [List.length_cons] at hf hg ⊢; omega)
              simp [globMatchF, hsp, h3]
          · rcases s with _ | ⟨d, st⟩
            · simp [globMatchF, hsp]
            · have hrest := splitClass_rest_lt hsp
              have h3 : globMatchF n st rest = globMatchF m st rest := by
                apply ih <;> (simp only [List.length_cons] at hf hg ⊢; omega)
              simp [globMatchF, hsp, h3]
        · rcases s with _ | ⟨d, st⟩
          · simp [globMatchF, hstar, hq, hbr]
          · have h3 : globMatchF n st pt = globMatchF m st pt := by
              apply ih <;> (simp only [List.length_cons] at hf hg ⊢; omega)
            simp [globMatchF, hstar, hq, hbr, h3]

/-- `fnmatch.fnmatch(name, pattern)` lifted to `String`, with adequate fuel. -/
def fnmatch (name pattern : String) : Bool :=
  globMatchF (name.toList.length + pattern.toList.length + 1) name.toList pattern.toList

theorem fnmatch_check1 : fnmatch "foo-linux.tar.gz" "*linux*" = true := by decide

theorem fnmatch_check2 : fnmatch "xab" "a*" = false := by decide

theorem fnmatch_check3 : fnmatch "tool-1.2.zip" "[!a]ool-?.2.*p" = true := by decide

/-! ## Pattern synthesizer (src/ghr_get/cli.py)

`unique_substrings` (src/getrel/utils.py:220) builds an insertion-ordered
dictionary from substrings to the single string owning them (`None` once a
substring occurs in two places), then maps each string to its shortest owned
substring.  `identifying_pattern` (src/ghr_get/cli.py:753) consumes it. -/

/-- The substring of `s` of length `len` starting at `start` (`s[start:start+len]`). -/
def substrAt (s : List Char) (start len : Nat) : List Char :=
  (s.drop start).take len

/-- One assignment `candidates[substr] = None if substr in candidates else string`:
an insertion-ordered dictionary update (re-assignment keeps the original
position, as Python dicts do). -/
def updateCandidate (cands : List (List Char × Option (List Char)))
    (sub owner : List Char) : List (List Char × Option (List Char)) :=
  if cands.any (fun p => p.1 == sub) then
    cands.map (fun p => if p.1 == sub then (p.1, none) else p)
  else
    cands ++ [(sub, some owner)]

/-- The two inner loops of `unique_substrings` for one `string`: all lengths
`1 .. len(string)-1` and all start offsets. -/
def addStringSubstrings (cands : List (List Char × Option (List Char)))
    (s : List Char) : List (List Char × Option (List Char)) :=
  (List.range (s.length - 1)).foldl
    (fun c i =>
      (List.range (s.length - (i + 1) + 1)).foldl
        (fun c2 start => updateCandidate c2 (substrAt s start (i + 1)) s) c)
    cands

/-- First-occurrence association lookup (a Python dict read). -/
def lookupAssoc (u : List (List Char × α)) (k : List Char) : Option α :=
  (u.find? (fun q => q.1 == k)).map (fun q => q.2)

/-- In-place association overwrite (a Python dict write to an existing key,
keeping its position). -/
def setAssoc (u : List (List Char × List Char)) (k v : List Char) :
    List (List Char × List Char) :=
  u.map (fun q => if q.1 == k then (k, v) else q)

/-- Embedding of `unique_substrings` (src/getrel/utils.py:220): maps each
string to the shortest substring identifying it within the list, as an
insertion-ordered association list. -/
def unique_substrings (strings : List (List Char)) : List (List Char × List Char) :=
  (strings.foldl addStringSubstrings []).foldl
    (fun u p =>
      match p.2 with
      | none => u
      | some owner =>
        match lookupAssoc u owner with
        | none => u ++ [(owner, p.1)]
        | some prev => if p.1.length < prev.length then setAssoc u owner p.1 else u)
    []

theorem unique_substrings_docstring_example :
    unique_substrings [String.toList "ab", String.toList "abab", String.toList "abc"]
      = [(String.toList "abab", String.toList "ba"),
         (String.toList "abc", String.toList "c")] := by decide

/-- `selection.index(substring)`: the first start offset where `substring`
occurs.  (Python raises `ValueError` when the substring does not occur; the
sentinel `s.length` is never reached in `identifying_pattern`, whose
substring always comes from `selection` itself.) -/
def indexOfSub (s sub : List Char) : Nat :=
  match (List.range (s.length + 1)).find? (fun i => substrAt s i sub.length == sub) with
  | some i => i
  | none => s.length

/-- Embedding of `identifying_pattern(alternatives, selection)` from
src/ghr_get/cli.py:753 for calls with `version=None` and the default
`avoid_minimal=False` (so the `mask_version` branch is skipped, exactly as in
the source).  The first executed strategy is the minimal-unique-substring one
(cli.py:800-811), whose result is returned without any validity check; when
it produces nothing the source falls through to the `SequenceMatcher`
longest-common-subsequence fallback, which this embedding leaves abstract as
`none` (the claims evaluated here never reach it). -/
def identifying_pattern (alternatives : List String) (selection : String) :
    Option String :=
  let sel := selection.toList
  let altsL := alternatives.map String.toList
  let alts := if altsL.contains sel then altsL.filter (fun a => a != sel) else altsL
  match lookupAssoc (unique_substrings (sel :: alts)) sel with
  | some substring =>
    let pos := indexOfSub sel substring
    some (String.mk ((if pos == 0 then ['*'] else []) ++ substring ++
          (if pos + substring.length < sel.length then ['*'] else [])))
  | none => none

/-- C1: claimed — `identifying_pattern` either returns a pattern that
glob-matches the selection and none of the alternatives, or raises
`NoPatternError`; it never returns an invalid pattern.  The code violates
this: on selection `"xab"` with alternatives `["xc"]` the
minimal-unique-substring strategy finds the unique substring `"a"` at offset
1 and, because the leading-star condition at cli.py:806 is inverted
(`if pos == 0` instead of `if pos > 0`) and no validity check is applied to
this strategy's output, returns the pattern `"a*"`, which does not
glob-match the selection `"xab"` at all. -/
theorem identifying_pattern_invalid_on_xab :
    identifying_pattern ["xc"] "xab" = some "a*" ∧ fnmatch "xab" "a*" = false := by
  decide

theorem identifying_pattern_unchecked_result_example :
    identifying_pattern ["fxc"] "fxab" = some "a*" ∧ fnmatch "fxab" "a*" = false := by
  decide

/-! ## Paths and the Installed-File Registry (src/getrel/project.py)

`pathlib.PurePosixPath` semantics: a path is an absolute flag plus a list of
components; the constructor drops empty and `.` components but keeps `..`.
`Path.absolute()` prefixes the current working directory (the project
directory inside `use_directory()`) and performs no other normalization;
`Path.resolve()` additionally collapses `..` (symlinks are not modelled:
the filesystems in this development contain none). -/

/-- A POSIX path: absolute flag plus components. -/
structure GPath where
  absolute : Bool
  parts : List String
deriving DecidableEq, Repr

/-- Split a character list on `/`. -/
def splitOnSlash : List Char → List (List Char)
  | [] => [[]]
  | c :: t =>
    let r := splitOnSlash t
    if c = '/' then [] :: r
    else
      match r with
      | h :: tl => (c :: h) :: tl
      | [] => [[c]]

/-- `Path(s)`: parse a string, dropping empty and `.` components. -/
def mkPath (s : String) : GPath :=
  let cs := s.toList
  { absolute := cs.head? == some '/'
    parts := ((splitOnSlash cs).map String.mk).filter
      (fun p => !(p == "" || p == ".")) }

/-- `os.fspath(p)`: render a path back to a string (the empty relative path
renders as `.`, as in pathlib). -/
def toFsPath (p : GPath) : String :=
  if p.parts.isEmpty then (if p.absolute then "/" else ".")
  else (if p.absolute then "/" else "") ++ String.intercalate "/" p.parts

/-- `p.is_relative_to(base)`: purely syntactic prefix test. -/
def isRelativeTo (p base : GPath) : Bool :=
  p.absolute == base.absolute && base.parts.isPrefixOf p.parts

/-- `p.relative_to(base)`, `none` when pathlib would raise `ValueError`. -/
def relativeTo (p base : GPath) : Option GPath :=
  if isRelativeTo p base then some ⟨false, p.parts.drop base.parts.length⟩ else none

/-- `base / p`. -/
def joinPath (base p : GPath) : GPath :=
  if p.absolute then p else ⟨base.absolute, base.parts ++ p.parts⟩

/-- `p.parent`. -/
def parentOf (p : GPath) : GPath :=
  ⟨p.absolute, p.parts.dropLast⟩

/-- Lexical `..` collapsing (the parent of the root is the root). -/
def normParts (l : List String) : List String :=
  l.foldl (fun acc part => if part == ".." then acc.dropLast else acc ++ [part]) []

/-- `Path.resolve()` on a symlink-free filesystem: collapse `..` lexically. -/
def normPath (p : GPath) : GPath :=
  ⟨p.absolute, normParts p.parts⟩

/-- Embedding of `GitHubProject.resolve_path` (src/getrel/project.py:469):
`Path(orig).absolute()` with the working directory set to the project
directory `pd` — note: no normalization, no symlink resolution. -/
def resolve_path (pd orig : GPath) : GPath :=
  if orig.absolute then orig else ⟨pd.absolute, pd.parts ++ orig.parts⟩

/-- Embedding of `GitHubProject.project_relative_fspath`
(src/getrel/project.py:453): relative to the project directory when
possible, otherwise the absolute rendering. -/
def project_relative_fspath (pd orig : GPath) : String :=
  let op := resolve_path pd orig
  match relativeTo op pd with
  | some rel => toFsPath rel
  | none => toFsPath op

/-- Embedding of `GitHubProject.register_installed_file`
(src/getrel/project.py:485): append each path's project-relative string
unless already present. -/
def register_installed_file (pd : GPath) (reg : List String) (files : List GPath) :
    List String :=
  files.foldl
    (fun r f =>
      let s := project_relative_fspath pd f
      if r.contains s then r else r ++ [s])
    reg

/-- Embedding of `GitHubProject.unregister_installed_file`
(src/getrel/project.py:491): remove the first occurrence when present,
otherwise log and do nothing. -/
def unregister_installed_file (pd : GPath) (reg : List String) (files : List GPath) :
    List String :=
  files.foldl
    (fun r f =>
      let s := project_relative_fspath pd f
      if r.contains s then r.erase s else r)
    reg

/-- C7: registering an already-registered path leaves the registry unchanged,
registering the same path twice yields exactly one entry, and unregistering
an unknown path is a no-op (and, being total, raises nothing). -/
theorem register_installed_file_idempotent (pd : GPath) (reg : List String) (f : GPath) :
    register_installed_file pd (register_installed_file pd reg [f]) [f]
        = register_installed_file pd reg [f]
    ∧ (reg.contains (project_relative_fspath pd f) = true →
        register_installed_file pd reg [f] = reg)
    ∧ (reg.count (project_relative_fspath pd f) = 0 →
        (register_installed_file pd reg [f]).count (project_relative_fspath pd f) = 1)
    ∧ (reg.contains (project_relative_fspath pd f) = false →
        unregister_installed_file pd reg [f] = reg) := by
  simp only [register_installed_file, unregister_installed_file, List.foldl_cons,
    List.foldl_nil]
  refine ⟨?_, ?_, ?_, ?_⟩
  · by_cases h : project_relative_fspath pd f ∈ reg
    · simp [h]
    · simp [h]
  · intro h
    have hm : project_relative_fspath pd f ∈ reg := by simpa using h
    simp [hm]
  · intro h
    have hm : project_relative_fspath pd f ∉ reg := by
      rw [List.count_eq_zero] at h
      exact h
    simp [hm, List.count_append, h]
  · intro h
    have hm : project_relative_fspath pd f ∉ reg := by simpa using h
    simp [hm]

theorem register_installed_file_idempotent_witness :
    register_installed_file (mkPath "/p") ["a"] [mkPath "a"] = ["a"]
    ∧ (register_installed_file (mkPath "/p") [] [mkPath "a"]).count
        (project_relative_fspath (mkPath "/p") (mkPath "a")) = 1
    ∧ unregister_installed_file (mkPath "/p") [] [mkPath "a"] = [] :=
  ⟨(register_installed_file_idempotent (mkPath "/p") ["a"] (mkPath "a")).2.1 (by decide),
   (register_installed_file_idempotent (mkPath "/p") [] (mkPath "a")).2.2.1 (by decide),
   (register_installed_file_idempotent (mkPath "/p") [] (mkPath "a")).2.2.2 (by decide)⟩

/-- C8: claimed — registry paths are normalized with symlinks resolved
before relativizing, so aliases of one file never produce two entries.  The
code computes the stored string via `Path(orig).absolute()`
(src/getrel/project.py:469-474), which performs no normalization, so the two
aliases `y/../z` and `z` of the same project file are stored as two distinct
entries, although `project_relative_fspath`'s own docstring promises
"with symlinks resolved". -/
theorem project_relative_fspath_keeps_aliases :
    register_installed_file (mkPath "/data/proj")
        (register_installed_file (mkPath "/data/proj") [] [mkPath "y/../z"])
        [mkPath "z"]
      = ["y/../z", "z"]
    ∧ normPath (resolve_path (mkPath "/data/proj") (mkPath "y/../z"))
      = normPath (resolve_path (mkPath "/data/proj") (mkPath "z")) := by
  decide

/-! ## The `delete` action (src/getrel/project.py:269)

`Installable.delete` filters its glob candidates down to the safe ones —
`c.is_relative_to(project_directory) or c in self.project.installed_files` —
sorts them by number of path components, deepest first, and removes them one
by one, unregistering each removed path; an `IOError` on one candidate is
logged and the loop continues.  Note that the membership test compares a
`pathlib.Path` against the registry's `str` entries; `Path.__eq__` with a
`str` is always `False` (both sides return `NotImplemented` and Python falls
back to identity), which `pathEqStr` records. -/

/-- The Python comparison `candidate == registry_entry` between a
`pathlib.Path` and a `str`: always `False`. -/
def pathEqStr (_ : GPath) (_ : String) : Bool := false

/-- The safety filter of `delete` (src/getrel/project.py:290): inside the
project directory, or (vacuously, see `pathEqStr`) equal to a registry entry. -/
def deleteSafe (pd : GPath) (reg : List String) (c : GPath) : Bool :=
  isRelativeTo c pd || reg.any (fun s => pathEqStr c s)

/-- Embedding of the removal loop of `Installable.delete`
(src/getrel/project.py:290-305).  `removeOk c` abstracts whether unlinking or
rmdir-ing `c` succeeds (an `IOError` is caught, logged and skipped).  Returns
the list of removed candidates in processing order together with the final
registry (the Python function itself returns `[]`; the pair captures its
side effects). -/
def deleteAction (pd : GPath) (reg : List String) (candidates : List GPath)
    (removeOk : GPath → Bool) : List GPath × List String :=
  (sortDescBy (fun p => p.parts.length) (candidates.filter (deleteSafe pd reg))).foldl
    (fun acc c =>
      if removeOk c then (acc.1 ++ [c], unregister_installed_file pd acc.2 [c])
      else acc)
    ([], reg)

theorem deleteAction_foldl (pd : GPath) (removeOk : GPath → Bool) :
    ∀ (l : List GPath) (acc : List GPath) (r : List String),
    l.foldl
      (fun acc c =>
        if removeOk c then (acc.1 ++ [c], unregister_installed_file pd acc.2 [c])
        else acc)
      (acc, r)
    = (acc ++ l.filter removeOk,
       (l.filter removeOk).foldl (fun r2 c => unregister_installed_file pd r2 [c]) r) := by
  intro l
  induction l with
  | nil => intro acc r; simp
  | cons x xs ih =>
    intro acc r
    by_cases hx : removeOk x
    · simp [List.foldl_cons, hx, ih]
    · simp [List.foldl_cons, hx, ih]

/-- C2: every path removed by `delete` is inside the project directory or
(per the always-false `Path`-vs-`str` comparison) present in the registry;
candidates are processed deepest-path-first; each removed path is
unregistered, in order; and a failed removal does not prevent any other safe
candidate from being removed. -/
theorem delete_safety_order_continue (pd : GPath) (reg : List String)
    (candidates : List GPath) (removeOk : GPath → Bool) :
    (∀ d ∈ (deleteAction pd reg candidates removeOk).1,
        isRelativeTo d pd = true ∨ reg.any (fun s => pathEqStr d s) = true)
    ∧ (deleteAction pd reg candidates removeOk).1.Pairwise
        (fun a b => b.parts.length ≤ a.parts.length)
    ∧ (deleteAction pd reg candidates removeOk).2
      = (deleteAction pd reg candidates removeOk).1.foldl
          (fun r c => unregister_installed_file pd r [c]) reg
    ∧ (∀ c ∈ candidates, deleteSafe pd reg c = true → removeOk c = true →
        c ∈ (deleteAction pd reg candidates removeOk).1) := by
  have hfold := deleteAction_foldl pd removeOk
    (sortDescBy (fun p => p.parts.length) (candidates.filter (deleteSafe pd reg))) [] reg
  have hdel : deleteAction pd reg candidates removeOk
      = ((sortDescBy (fun p => p.parts.length)
            (candidates.filter (deleteSafe pd reg))).filter removeOk,
         ((sortDescBy (fun p => p.parts.length)
            (candidates.filter (deleteSafe pd reg))).filter removeOk).foldl
           (fun r2 c => unregister_installed_file pd r2 [c]) reg) := by
    unfold deleteAction
    rw [hfold]
    simp only [List.nil_append]
  refine ⟨?_, ?_, ?_, ?_⟩
  · intro d hd
    rw [hdel] at hd
    have hd1 : d ∈ sortDescBy (fun p => p.parts.length)
        (candidates.filter (deleteSafe pd reg)) := List.mem_of_mem_filter hd
    have hd2 : d ∈ candidates.filter (deleteSafe pd reg) := mem_sortDescBy.mp hd1
    have hsafe : deleteSafe pd reg d = true := List.of_mem_filter hd2
    unfold deleteSafe at hsafe
    rcases Bool.or_eq_true_iff.mp hsafe with h | h
    · exact Or.inl h
    · exact Or.inr h
  · rw [hdel]
    exact (sortDescBy_pairwise (fun p => p.parts.length)
      (candidates.filter (deleteSafe pd reg))).sublist (List.filter_sublist _)
  · rw [hdel]
  · intro c hc hsafe hok
    rw [hdel]
    refine List.mem_filter.mpr ⟨?_, hok⟩
    exact mem_sortDescBy.mpr (List.mem_filter.mpr ⟨hc, hsafe⟩)

theorem delete_safety_order_continue_witness :
    mkPath "/p/a/b" ∈
      (deleteAction (mkPath "/p") ["x"] [mkPath "/p/a/b", mkPath "/q/other"]
        (fun p => p.parts.length ≤ 3)).1 :=
  (delete_safety_order_continue (mkPath "/p") ["x"]
      [mkPath "/p/a/b", mkPath "/q/other"] (fun p => p.parts.length ≤ 3)).2.2.2
    (mkPath "/p/a/b") (by decide) (by decide) (by decide)

/-! ## The `unpack` action (src/getrel/project.py:238)

For tar archives, `Installable.unpack` computes the safe members — those
whose name is neither absolute nor contains a `..` component — before
extraction, warns about the others, extracts only the safe ones, and returns
`[(path / member).resolve().relative_to(project_directory.resolve())]`,
registering every returned path. -/

/-- The member-safety test of `Installable.unpack` (src/getrel/project.py:248):
`not (Path(m.name).is_absolute() or '..' in Path(m.name).parts)`. -/
def tarSafeMember (m : GPath) : Bool :=
  !(m.absolute || m.parts.contains "..")

/-- A Python list comprehension over a fallible body: the first failure
aborts the whole comprehension (the exception propagates). -/
def mapOption (f : α → Option β) : List α → Option (List β)
  | [] => some []
  | x :: xs =>
    match f x, mapOption f xs with
    | some y, some ys => some (y :: ys)
    | _, _ => none

theorem mapOption_mem {f : α → Option β} :
    ∀ {l : List α} {out : List β}, mapOption f l = some out →
    ∀ y ∈ out, ∃ x, x ∈ l ∧ f x = some y := by
  intro l
  induction l with
  | nil =>
    intro out h y hy
    simp only [mapOption, Option.some.injEq] at h
    rw [← h] at hy
    simp at hy
  | cons x xs ih =>
    intro out h y hy
    simp only [mapOption] at h
    rcases hfx : f x with _ | z
    · rw [hfx] at h; simp at h
    · rw [hfx] at h
      rcases hrest : mapOption f xs with _ | ys
      · rw [hrest] at h; simp at h
      · rw [hrest] at h
        simp only [Option.some.injEq] at h
        rw [← h] at hy
        rcases List.mem_cons.mp hy with rfl | hy'
        · exact ⟨x, List.mem_cons_self x xs, hfx⟩
        · rcases ih hrest y hy' with ⟨x', hx', hfx'⟩
          exact ⟨x', List.mem_cons_of_mem x hx', hfx'⟩

/-- Embedding of the tar branch of `Installable.unpack`
(src/getrel/project.py:246-267).  Returns the warned-about skipped members
and, when every `relative_to` succeeds, the extracted relative paths together
with the updated registry; `none` in the second component is the propagated
`ValueError` of `relative_to`. -/
def unpackTar (pd targetDir : GPath) (members : List GPath) (reg : List String) :
    List GPath × Option (List GPath × List String) :=
  (members.filter (fun m => !(tarSafeMember m)),
   match mapOption
       (fun m => relativeTo (normPath (joinPath targetDir m)) (normPath pd))
       (members.filter tarSafeMember) with
   | some extracted => some (extracted, register_installed_file pd reg extracted)
   | none => none)

theorem register_installed_file_cons (pd : GPath) (reg : List String) (f : GPath)
    (fs : List GPath) :
    register_installed_file pd reg (f :: fs)
      = register_installed_file pd
          (if reg.contains (project_relative_fspath pd f) then reg
           else reg ++ [project_relative_fspath pd f]) fs := rfl

theorem register_installed_file_superset (pd : GPath) (files : List GPath) :
    ∀ (reg : List String) (x : String), x ∈ reg →
      x ∈ register_installed_file pd reg files := by
  induction files with
  | nil =>
    intro reg x hx
    simpa [register_installed_file] using hx
  | cons f fs ih =>
    intro reg x hx
    rw [register_installed_file_cons]
    apply ih
    split
    · exact hx
    · exact List.mem_append_left _ hx

theorem mem_register_installed_file (pd : GPath) (files : List GPath) :
    ∀ (reg : List String) (f : GPath), f ∈ files →
      project_relative_fspath pd f ∈ register_installed_file pd reg files := by
  induction files with
  | nil => intro reg f hf; simp at hf
  | cons g gs ih =>
    intro reg f hf
    rcases List.mem_cons.mp hf with rfl | hf'
    · rw [register_installed_file_cons]
      apply register_installed_file_superset
      split
      · rename_i hc
        simpa using hc
      · exact List.mem_append_right _ (List.mem_singleton.mpr rfl)
    · rw [register_installed_file_cons]
      exact ih _ f hf'

/-- C3: unsafe tar members (absolute path or a `..` component) are always in
the warned-about skipped list and never among the extracted members; on
success the returned paths are exactly the safe members' paths relativized to
the project directory (in particular all relative), and every one of them is
registered as an installed file. -/
theorem unpack_filters_unsafe_and_registers (pd targetDir : GPath)
    (members : List GPath) (reg : List String) :
    (∀ m ∈ members, (m.absolute = true ∨ ".." ∈ m.parts) →
        m ∈ (unpackTar pd targetDir members reg).1
        ∧ m ∉ members.filter tarSafeMember)
    ∧ (∀ ext reg2, (unpackTar pd targetDir members reg).2 = some (ext, reg2) →
        mapOption (fun m => relativeTo (normPath (joinPath targetDir m)) (normPath pd))
            (members.filter tarSafeMember) = some ext
        ∧ (∀ e ∈ ext, e.absolute = false)
        ∧ reg2 = register_installed_file pd reg ext
        ∧ (∀ e ∈ ext, project_relative_fspath pd e ∈ reg2)) := by
  constructor
  · intro m hm hunsafe
    have hns : tarSafeMember m = false := by
      unfold tarSafeMember
      rcases hunsafe with h | h
      · simp [h]
      · have hc : m.parts.contains ".." = true := by
          simp only [List.contains_eq_any_beq, List.any_eq_true]
          exact ⟨"..", h, by simp⟩
        simp [hc, h]
    constructor
    · show m ∈ members.filter (fun m => !(tarSafeMember m))
      exact List.mem_filter.mpr ⟨hm, by simp [hns]⟩
    · intro hcontra
      have := (List.mem_filter.mp hcontra).2
      rw [hns] at this
      exact Bool.false_ne_true this
  · intro ext reg2 hsome
    have h2 : (unpackTar pd targetDir members reg).2
        = match mapOption
            (fun m => relativeTo (normPath (joinPath targetDir m)) (normPath pd))
            (members.filter tarSafeMember) with
          | some extracted => some (extracted, register_installed_file pd reg extracted)
          | none => none := rfl
    rw [h2] at hsome
    rcases hmo : mapOption
        (fun m => relativeTo (normPath (joinPath targetDir m)) (normPath pd))
        (members.filter tarSafeMember) with _ | extracted
    · rw [hmo] at hsome; simp at hsome
    · rw [hmo] at hsome
      simp only [Option.some.injEq, Prod.mk.injEq] at hsome
      rcases hsome with ⟨hext, hreg⟩
      subst hext
      refine ⟨rfl, ?_, hreg.symm, ?_⟩
      · intro e he
        rcases mapOption_mem hmo e he with ⟨m, _, hfm⟩
        unfold relativeTo at hfm
        split at hfm
        · simp only [Option.some.injEq] at hfm
          rw [← hfm]
        · simp at hfm
      · intro e he
        rw [← hreg]
        exact mem_register_installed_file pd extracted reg e he

theorem unpack_filters_unsafe_and_registers_witness :
    (mkPath "/etc/x" ∈
        (unpackTar (mkPath "/p") (mkPath "/p")
          [mkPath "a/b", mkPath "/etc/x", mkPath "../y"] []).1
      ∧ mkPath "/etc/x" ∉
        ([mkPath "a/b", mkPath "/etc/x", mkPath "../y"].filter tarSafeMember))
    ∧ (∀ e ∈ [mkPath "a/b"], project_relative_fspath (mkPath "/p") e ∈ ["a/b"]) := by
  constructor
  · exact (unpack_filters_unsafe_and_registers (mkPath "/p") (mkPath "/p")
      [mkPath "a/b", mkPath "/etc/x", mkPath "../y"] []).1
      (mkPath "/etc/x") (by decide) (Or.inl (by decide))
  · have h := (unpack_filters_unsafe_and_registers (mkPath "/p") (mkPath "/p")
      [mkPath "a/b", mkPath "/etc/x", mkPath "../y"] []).2
      [mkPath "a/b"] ["a/b"] (by decide)
    exact h.2.2.2

/-! ## Conditional fetch cache (src/getrel/utils.py:120)

`fetch_if_newer` is embedded as a pure transition function.  Times are
seconds as naturals; the `Last-Modified` header is abstracted to its parsed
timestamp; the HTTP exchange is abstracted to the response the server would
give.  The result records the outcome (including a raised
`requests.HTTPError`), the cache after the call, and whether a network
request was performed. -/

/-- The persisted cache record: `last-request`, `Last-Modified`, `ETag`,
`data`. -/
structure FetchCache where
  lastRequest : Option Nat
  lastModified : Option Nat
  etag : Option String
  data : Option String
deriving DecidableEq, Repr

/-- The configured throttles `settings.fetch_delay` / `settings.update_delay`
(both default to one day, src/getrel/config.py:284). -/
structure FetchSettings where
  fetchDelay : Nat
  updateDelay : Nat
deriving DecidableEq, Repr

/-- What the server would answer: status code plus optional validator
headers and a body. -/
structure HttpResponse where
  status : Nat
  etag : Option String
  lastModified : Option Nat
  body : String
deriving DecidableEq, Repr

/-- Outcome of `fetch_if_newer`: `False` (not modified), `True` (updated), or
a raised `HTTPError` from `raise_for_status`. -/
inductive FetchResult where
  | notModified
  | updated
  | httpError (status : Nat)
deriving DecidableEq, Repr

/-- The empty cache (a fresh `{}` dict). -/
def emptyCache : FetchCache := ⟨none, none, none, none⟩

/-- Embedding of `fetch_if_newer` (src/getrel/utils.py:120-217) for the
metadata (`json`) variant, whose body is stored under the cache's `data` key.
Control flow follows the source: the two throttles return `False` touching
nothing and performing no request; otherwise a request is made and
`last-request` is set to now whatever the outcome; a 304 returns `False`
with the rest of the cache untouched; a status of 400 or above raises; a
success stores the response validators (keeping the old ones when a header
is absent) and the body.  The third component records whether a network
request was performed. -/
def fetch_if_newer (now : Nat) (cache : FetchCache) (s : FetchSettings)
    (resp : HttpResponse) : FetchResult × FetchCache × Bool :=
  if _h1 : cache.lastRequest.isSome ∧ now - cache.lastRequest.getD 0 ≤ s.fetchDelay then
    (.notModified, cache, false)
  else if _h2 : cache.lastModified.isSome ∧ now - cache.lastModified.getD 0 ≤ s.updateDelay then
    (.notModified, cache, false)
  else if resp.status == 304 then
    (.notModified, { cache with lastRequest := some now }, true)
  else if 400 ≤ resp.status then
    (.httpError resp.status, { cache with lastRequest := some now }, true)
  else
    (.updated,
     { lastRequest := some now
       etag := match resp.etag with
         | some e => some e
         | none => cache.etag
       lastModified := match resp.lastModified with
         | some t => some t
         | none => cache.lastModified
       data := some resp.body },
     true)

/-- C4: when either throttle applies — the last request is within
`fetch_delay` of now, or the cached `Last-Modified` is within `update_delay`
of now — the call returns `NotModified` without any network request (and so
without inspecting any header); in particular a second call made immediately
after a first call on an initially empty cache performs no network request
and returns `NotModified`. -/
theorem fetch_if_newer_throttles (now : Nat) (cache : FetchCache)
    (s : FetchSettings) (resp : HttpResponse) :
    ((∃ t, cache.lastRequest = some t ∧ now - t ≤ s.fetchDelay) ∨
     (∃ t, cache.lastModified = some t ∧ now - t ≤ s.updateDelay) →
      fetch_if_newer now cache s resp = (.notModified, cache, false))
    ∧ (∀ resp2,
        fetch_if_newer now (fetch_if_newer now emptyCache s resp).2.1 s resp2
          = (.notModified, (fetch_if_newer now emptyCache s resp).2.1, false)) := by
  constructor
  · intro h
    unfold fetch_if_newer
    rcases h with ⟨t, ht, hle⟩ | ⟨t, ht, hle⟩
    · rw [dif_pos]
      constructor
      · rw [ht]; rfl
      · rw [ht]; simpa using hle
    · by_cases hfirst : cache.lastRequest.isSome ∧ now - cache.lastRequest.getD 0 ≤ s.fetchDelay
      · rw [dif_pos hfirst]
      · rw [dif_neg hfirst, dif_pos]
        constructor
        · rw [ht]; rfl
        · rw [ht]; simpa using hle
  · intro resp2
    have hfirst : (fetch_if_newer now emptyCache s resp).2.1.lastRequest = some now := by
      unfold fetch_if_newer emptyCache
      simp only [Option.isSome_none, Bool.false_eq_true, false_and, dite_false]
      by_cases h304 : (resp.status == 304) = true
      · rw [if_pos h304]
      · rw [if_neg h304]
        by_cases herr : 400 ≤ resp.status
        · rw [if_pos herr]
        · rw [if_neg herr]
    generalize hc : (fetch_if_newer now emptyCache s resp).2.1 = c1 at hfirst ⊢
    unfold fetch_if_newer
    rw [dif_pos]
    constructor
    · rw [hfirst]; rfl
    · rw [hfirst]
      simp

theorem fetch_if_newer_throttles_witness :
    fetch_if_newer 100 ⟨some 95, none, none, none⟩ ⟨30, 60⟩ ⟨200, none, none, "b"⟩
      = (.notModified, ⟨some 95, none, none, none⟩, false) :=
  (fetch_if_newer_throttles 100 ⟨some 95, none, none, none⟩ ⟨30, 60⟩
      ⟨200, none, none, "b"⟩).1
    (Or.inl ⟨95, rfl, by decide⟩)

/-- C5: whenever `fetch_if_newer` performs a network request, the cache's
`last-request` is set to now regardless of the outcome (success, 304, or a
raised HTTP error); and a 304 returns `NotModified` with `ETag`,
`Last-Modified` and `data` exactly as before the call. -/
theorem fetch_if_newer_records_request_and_304 (now : Nat) (cache : FetchCache)
    (s : FetchSettings) (resp : HttpResponse) :
    ((fetch_if_newer now cache s resp).2.2 = true →
      (fetch_if_newer now cache s resp).2.1.lastRequest = some now)
    ∧ ((fetch_if_newer now cache s resp).2.2 = true → resp.status = 304 →
      (fetch_if_newer now cache s resp).1 = .notModified
      ∧ (fetch_if_newer now cache s resp).2.1.etag = cache.etag
      ∧ (fetch_if_newer now cache s resp).2.1.lastModified = cache.lastModified
      ∧ (fetch_if_newer now cache s resp).2.1.data = cache.data) := by
  unfold fetch_if_newer
  by_cases hfirst : cache.lastRequest.isSome ∧ now - cache.lastRequest.getD 0 ≤ s.fetchDelay
  · rw [dif_pos hfirst]
    exact ⟨fun h => absurd h (by simp), fun h => absurd h (by simp)⟩
  · rw [dif_neg hfirst]
    by_cases hsecond : cache.lastModified.isSome ∧ now - cache.lastModified.getD 0 ≤ s.updateDelay
    · rw [dif_pos hsecond]
      exact ⟨fun h => absurd h (by simp), fun h => absurd h (by simp)⟩
    · rw [dif_neg hsecond]
      by_cases h304 : (resp.status == 304) = true
      · rw [if_pos h304]
        exact ⟨fun _ => rfl, fun _ _ => ⟨rfl, rfl, rfl, rfl⟩⟩
      · rw [if_neg h304]
        by_cases herr : 400 ≤ resp.status
        · rw [if_pos herr]
          refine ⟨fun _ => rfl, fun _ hs => ?_⟩
          rw [hs] at h304
          simp at h304
        · rw [if_neg herr]
          refine ⟨fun _ => rfl, fun _ hs => ?_⟩
          rw [hs] at h304
          simp at h304

theorem fetch_if_newer_records_request_and_304_witness :
    (fetch_if_newer 50 ⟨none, none, some "e1", some "d1"⟩ ⟨30, 60⟩
        ⟨304, some "e2", some 7, "ignored"⟩).2.1.lastRequest = some 50
    ∧ (fetch_if_newer 50 ⟨none, none, some "e1", some "d1"⟩ ⟨30, 60⟩
        ⟨304, some "e2", some 7, "ignored"⟩).1 = .notModified
    ∧ (fetch_if_newer 50 ⟨none, none, some "e1", some "d1"⟩ ⟨30, 60⟩
        ⟨304, some "e2", some 7, "ignored"⟩).2.1.etag = some "e1"
    ∧ (fetch_if_newer 50 ⟨none, none, some "e1", some "d1"⟩ ⟨30, 60⟩
        ⟨304, some "e2", some 7, "ignored"⟩).2.1.data = some "d1" := by
  have h := fetch_if_newer_records_request_and_304 50 ⟨none, none, some "e1", some "d1"⟩
    ⟨30, 60⟩ ⟨304, some "e2", some 7, "ignored"⟩
  have h1 := h.1 (by decide)
  have h2 := h.2 (by decide) (by decide)
  exact ⟨h1, h2.1, h2.2.1, h2.2.2.2⟩

/-! ## Release selection (src/getrel/project.py:677-701)

`GitHubProject.releases` sorts the cached release records by `created_at`
descending (`sorted(..., key=itemgetter('created_at'), reverse=True)` — a
stable descending sort); `select_release` picks the first of them matching
the configured rule, via `first(generator, default=None)`, i.e. the head of
the lazily filtered list. -/

/-- A cached GitHub release record, restricted to the fields the selector
reads: `tag_name` (the version), `created_at` (sort key, abstracted to a
number), `draft` and `prerelease`. -/
structure GHRelease where
  tag : String
  created_at : Nat
  draft : Bool
  prerelease : Bool
deriving DecidableEq, Repr

/-- Embedding of the sort in `GitHubProject.releases`
(src/getrel/project.py:685). -/
def releasesSorted (cached : List GHRelease) : List GHRelease :=
  sortDescBy (fun r => r.created_at) cached

/-- Embedding of `GitHubProject.select_release` (src/getrel/project.py:688):
`latest` → first non-draft non-prerelease; `pre` → first non-draft; any
other rule → first non-draft release whose tag glob-matches the rule;
an empty release list gives `None`. -/
def select_release (rule : String) (cached : List GHRelease) : Option GHRelease :=
  if (releasesSorted cached).isEmpty then none
  else if rule == "latest" then
    ((releasesSorted cached).filter (fun r => !r.prerelease && !r.draft)).head?
  else if rule == "pre" then
    ((releasesSorted cached).filter (fun r => !r.draft)).head?
  else
    ((releasesSorted cached).filter (fun r => fnmatch r.tag rule && !r.draft)).head?

/-- The per-rule qualification test, for stating when no release qualifies. -/
def releaseQualifies (rule : String) (r : GHRelease) : Bool :=
  if rule == "latest" then !r.prerelease && !r.draft
  else if rule == "pre" then !r.draft
  else fnmatch r.tag rule && !r.draft

theorem head_filter_eq_find (p : α → Bool) :
    ∀ l : List α, (l.filter p).head? = l.find? p := by
  intro l
  induction l with
  | nil => rfl
  | cons x xs ih =>
    by_cases hx : p x
    · rw [List.filter_cons_of_pos hx, List.find?_cons_of_pos _ hx]
      rfl
    · rw [List.filter_cons_of_neg hx, List.find?_cons_of_neg _ hx, ih]

/-- C6: over the cached releases sorted newest-first, `latest` selects the
first release that is neither draft nor prerelease, `pre` the first
non-draft release, any other rule the first non-draft release whose tag
glob-matches it, and `None` is returned (no error) when nothing qualifies. -/
theorem select_release_rules (rule : String) (cached : List GHRelease) :
    select_release "latest" cached
      = (releasesSorted cached).find? (fun r => !r.prerelease && !r.draft)
    ∧ select_release "pre" cached
      = (releasesSorted cached).find? (fun r => !r.draft)
    ∧ (rule ≠ "latest" → rule ≠ "pre" →
        select_release rule cached
          = (releasesSorted cached).find? (fun r => fnmatch r.tag rule && !r.draft))
    ∧ ((∀ r ∈ releasesSorted cached, releaseQualifies rule r = false) →
        select_release rule cached = none) := by
  by_cases hempty : (releasesSorted cached).isEmpty = true
  · have hnil : releasesSorted cached = [] := List.isEmpty_iff.mp hempty
    refine ⟨?_, ?_, ?_, ?_⟩
    · rw [select_release, if_pos hempty, hnil]; rfl
    · rw [select_release, if_pos hempty, hnil]; rfl
    · intro _ _
      rw [select_release, if_pos hempty, hnil]; rfl
    · intro _
      rw [select_release, if_pos hempty]
  · refine ⟨?_, ?_, ?_, ?_⟩
    · rw [select_release, if_neg hempty, if_pos (by rfl), head_filter_eq_find]
    · rw [select_release, if_neg hempty, if_neg (by decide), if_pos (by rfl),
        head_filter_eq_find]
    · intro hlat hpre
      rw [select_release, if_neg hempty, if_neg (by simp [hlat]),
        if_neg (by simp [hpre]), head_filter_eq_find]
    · intro hnone
      rw [select_release, if_neg hempty]
      by_cases hlat : (rule == "latest") = true
      · rw [if_pos hlat]
        have hrule : rule = "latest" := by simpa using hlat
        rw [head_filter_eq_find, List.find?_eq_none]
        intro r hr
        have := hnone r hr
        rw [releaseQualifies, hrule] at this
        simpa using this
      · rw [if_neg hlat]
        by_cases hpre : (rule == "pre") = true
        · rw [if_pos hpre]
          have hrule : rule = "pre" := by simpa using hpre
          rw [head_filter_eq_find, List.find?_eq_none]
          intro r hr
          have := hnone r hr
          rw [releaseQualifies, hrule] at this
          simpa using this
        · rw [if_neg hpre]
          rw [head_filter_eq_find, List.find?_eq_none]
          intro r hr
          have := hnone r hr
          rw [releaseQualifies, if_neg hlat, if_neg hpre] at this
          simpa using this

theorem select_release_rules_witness :
    select_release "v1.*" [⟨"v2.0", 5, false, false⟩, ⟨"v1.9", 4, false, false⟩]
      = ([⟨"v2.0", 5, false, false⟩, ⟨"v1.9", 4, false, false⟩] :
          List GHRelease).find? (fun r => fnmatch r.tag "v1.*" && !r.draft)
    ∧ select_release "nothing-matches" [⟨"v2.0", 5, false, false⟩] = none := by
  constructor
  · have h := (select_release_rules "v1.*"
      [⟨"v2.0", 5, false, false⟩, ⟨"v1.9", 4, false, false⟩]).2.2.1
      (by decide) (by decide)
    rw [h]
    rfl
  · exact (select_release_rules "nothing-matches" [⟨"v2.0", 5, false, false⟩]).2.2.2
      (by decide)

/-! ## Action execution order (src/getrel/project.py:187,326-358)

`Installable._actions_from_mapping` iterates over the fixed class attribute
`ACTIONS = ['unpack', 'bin', 'link', 'delete', 'record']` and runs
`action_specs.get(action)` whenever the mapping configures the action, so the
mapping's own ordering is irrelevant; `_run_actions` turns a list spec
`[a, b, ...]` into the dict `{a: None, b: None, ...}` first.  The effect of
one action is abstracted as `run action argument state`, returning the new
state and the produced source paths. -/

/-- `Installable.ACTIONS` (src/getrel/project.py:187). -/
def ACTIONS : List String := ["unpack", "bin", "link", "delete", "record"]

/-- `action_specs.get(action, _no_config)`: a Python dict read
(`none` = `_no_config`; keys are unique, first match). -/
def lookupDict (specs : List (String × Option String)) (k : String) :
    Option (Option String) :=
  (specs.find? (fun p => p.1 == k)).map (fun p => p.2)

/-- `{action: None for action in spec}` for a list-shaped action spec: an
insertion-ordered dict, keeping the first position of a repeated key. -/
def dictFromList (names : List String) : List (String × Option String) :=
  names.foldl
    (fun d n => if d.any (fun p => p.1 == n) then d else d ++ [(n, none)]) []

/-- Embedding of `Installable._actions_from_mapping`
(src/getrel/project.py:326-345): fold over `ACTIONS`, running each configured
action.  Returns the final state, the accumulated `new_sources`, and the
trace of invocations in execution order. -/
def actionsFromMapping {σ π : Type} (run : String → Option String → σ → σ × List π)
    (specs : List (String × Option String)) (s0 : σ) :
    σ × List π × List (String × Option String) :=
  ACTIONS.foldl
    (fun st a =>
      match lookupDict specs a with
      | some arg =>
        ((run a arg st.1).1, st.2.1 ++ (run a arg st.1).2, st.2.2 ++ [(a, arg)])
      | none => st)
    (s0, [], [])

/-- Embedding of the list branch of `Installable._run_actions`
(src/getrel/project.py:355-356). -/
def runActionsList {σ π : Type} (run : String → Option String → σ → σ × List π)
    (names : List String) (s0 : σ) :
    σ × List π × List (String × Option String) :=
  actionsFromMapping run (dictFromList names) s0

theorem lookupDict_all_none (d : List (String × Option String))
    (hval : ∀ p ∈ d, p.2 = none) (a : String) :
    lookupDict d a = if d.any (fun p => p.1 == a) then some none else none := by
  by_cases h : d.any (fun p => p.1 == a) = true
  · rw [if_pos h]
    rcases List.any_eq_true.mp h with ⟨p, hp, hpa⟩
    unfold lookupDict
    rcases hfind : d.find? (fun p => p.1 == a) with _ | q
    · rw [List.find?_eq_none] at hfind
      exact absurd hpa (hfind p hp)
    · have hq : q ∈ d := List.mem_of_find?_eq_some hfind
      rw [hfind]
      simp [hval q hq]
  · rw [if_neg h]
    unfold lookupDict
    have : d.find? (fun p => p.1 == a) = none := by
      rw [List.find?_eq_none]
      intro p hp hpa
      exact h (List.any_eq_true.mpr ⟨p, hp, hpa⟩)
    rw [this]
    rfl

theorem dictFromList_values_none (names : List String) :
    ∀ p ∈ dictFromList names, p.2 = none := by
  unfold dictFromList
  suffices h : ∀ (d : List (String × Option String)), (∀ p ∈ d, p.2 = none) →
      ∀ p ∈ names.foldl
        (fun d n => if d.any (fun p => p.1 == n) then d else d ++ [(n, none)]) d,
      p.2 = none by
    exact h [] (by simp)
  induction names with
  | nil => intro d hd p hp; exact hd p hp
  | cons n ns ih =>
    intro d hd p hp
    rw [List.foldl_cons] at hp
    refine ih _ ?_ p hp
    split
    · exact hd
    · intro q hq
      rcases List.mem_append.mp hq with hq' | hq'
      · exact hd q hq'
      · rcases List.mem_singleton.mp hq' with rfl
        rfl

theorem dictFromList_keys (names : List String) (a : String) :
    (dictFromList names).any (fun p => p.1 == a) = names.contains a := by
  unfold dictFromList
  suffices h : ∀ (d : List (String × Option String)),
      (names.foldl
        (fun d n => if d.any (fun p => p.1 == n) then d else d ++ [(n, none)]) d).any
        (fun p => p.1 == a)
      = (d.any (fun p => p.1 == a) || names.contains a) by
    rw [h []]
    simp
  induction names with
  | nil =>
    intro d
    simp
  | cons n ns ih =>
    intro d
    rw [List.foldl_cons, ih]
    by_cases hn : d.any (fun p => p.1 == n) = true
    · rw [if_pos hn]
      by_cases ha : a = n
      · subst ha
        have : d.any (fun p => p.1 == a) = true := hn
        simp [this]
      · simp only [List.contains_cons]
        have : (a == n) = false := by simpa using ha
        rw [this]
        simp
    · rw [if_neg hn]
      by_cases ha : a = n
      · subst ha
        simp [List.any_append]
      · simp only [List.contains_cons, List.any_append]
        have h1 : (a == n) = false := by simpa using ha
        have h2 : (n == a) = false := by simpa using Ne.symm ha
        rw [h1]
        simp [h2]

theorem lookupDict_dictFromList (names : List String) (a : String) :
    lookupDict (dictFromList names) a
      = if names.contains a then some none else none := by
  rw [lookupDict_all_none (dictFromList names) (dictFromList_values_none names) a,
    dictFromList_keys]

theorem actionsFromMapping_trace_fold {σ π : Type}
    (run : String → Option String → σ → σ × List π)
    (specs : List (String × Option String)) :
    ∀ (acts : List String) (st : σ × List π × List (String × Option String)),
    (acts.foldl
      (fun st a =>
        match lookupDict specs a with
        | some arg =>
          ((run a arg st.1).1, st.2.1 ++ (run a arg st.1).2, st.2.2 ++ [(a, arg)])
        | none => st)
      st).2.2
    = st.2.2 ++ acts.filterMap (fun a => (lookupDict specs a).map (fun arg => (a, arg))) := by
  intro acts
  induction acts with
  | nil => intro st; simp
  | cons a as ih =>
    intro st
    rcases hla : lookupDict specs a with _ | arg
    · simp [hla, ih]
    · simp [hla, ih]

theorem sublist_of_filterMap_fst (h : String → Option (Option String)) :
    ∀ acts : List String,
    ((acts.filterMap (fun a => (h a).map (fun arg => (a, arg)))).map Prod.fst).Sublist acts := by
  intro acts
  induction acts with
  | nil => simp
  | cons a as ih =>
    rw [List.filterMap_cons]
    rcases h a with _ | arg
    · exact ih.cons a
    · simpa using ih.cons₂ a

/-- C10: the engine always executes configured actions in the fixed internal
order `unpack, bin, link, delete, record`: for any mapping spec the trace of
invoked actions is a sublist of `ACTIONS`; for a list spec the trace is
exactly the `ACTIONS`-ordered filter of the configured names (with no
argument), and two list specs naming the same set of actions produce
identical executions regardless of their order. -/
theorem actions_run_in_fixed_order {σ π : Type}
    (run : String → Option String → σ → σ × List π)
    (specs : List (String × Option String)) (names : List String) (s0 : σ) :
    ((actionsFromMapping run specs s0).2.2.map Prod.fst).Sublist ACTIONS
    ∧ (runActionsList run names s0).2.2
        = (ACTIONS.filter (fun a => names.contains a)).map (fun a => (a, none))
    ∧ (∀ names2, (∀ a, names.contains a = names2.contains a) →
        runActionsList run names s0 = runActionsList run names2 s0) := by
  refine ⟨?_, ?_, ?_⟩
  · have := actionsFromMapping_trace_fold run specs ACTIONS (s0, [], [])
    unfold actionsFromMapping
    rw [this]
    simpa using sublist_of_filterMap_fst (lookupDict specs) ACTIONS
  · have := actionsFromMapping_trace_fold run (dictFromList names) ACTIONS (s0, [], [])
    unfold runActionsList actionsFromMapping
    rw [this]
    simp only [List.nil_append]
    have hgen : ∀ acts : List String,
        acts.filterMap (fun a => (lookupDict (dictFromList names) a).map
          (fun arg => (a, arg)))
        = (acts.filter (fun a => names.contains a)).map (fun a => (a, none)) := by
      intro acts
      induction acts with
      | nil => simp
      | cons a as ih =>
        rw [List.filterMap_cons, lookupDict_dictFromList]
        by_cases ha : names.contains a = true
        · rw [if_pos ha, List.filter_cons_of_pos ha, ih, List.map_cons]
          rfl
        · rw [if_neg ha, List.filter_cons_of_neg ha, ih]
          rfl
    exact hgen ACTIONS
  · intro names2 hsame
    unfold runActionsList actionsFromMapping
    have hlook : ∀ a, lookupDict (dictFromList names) a
        = lookupDict (dictFromList names2) a := by
      intro a
      rw [lookupDict_dictFromList, lookupDict_dictFromList, hsame]
    have hfold : ∀ (acts : List String) (st : σ × List π × List (String × Option String)),
        acts.foldl
          (fun st a =>
            match lookupDict (dictFromList names) a with
            | some arg =>
              ((run a arg st.1).1, st.2.1 ++ (run a arg st.1).2, st.2.2 ++ [(a, arg)])
            | none => st)
          st
        = acts.foldl
          (fun st a =>
            match lookupDict (dictFromList names2) a with
            | some arg =>
              ((run a arg st.1).1, st.2.1 ++ (run a arg st.1).2, st.2.2 ++ [(a, arg)])
            | none => st)
          st := by
      intro acts
      induction acts with
      | nil => intro st; rfl
      | cons a as ih =>
        intro st
        rw [List.foldl_cons, List.foldl_cons, hlook]
        exact ih _
    exact hfold ACTIONS (s0, [], [])

theorem actions_run_in_fixed_order_witness :
    runActionsList (fun _ _ n => (n + 1, [n])) ["link", "unpack"] 0
      = runActionsList (fun _ _ n => (n + 1, [n])) ["unpack", "link"] (0 : Nat) := by
  apply (actions_run_in_fixed_order (fun _ _ n => (n + 1, [n])) [] ["link", "unpack"] 0).2.2
  intro a
  by_cases h1 : a = "link"
  · subst h1; decide
  · by_cases h2 : a = "unpack"
    · subst h2; decide
    · simp [h1, h2]

/-! ## Uninstall (src/getrel/project.py:499-544)

`GitHubProject.uninstall` (with the default `keep_assets=False`) iterates
`get_installed()` — the registered files plus the unregistered files found
under the project directory (outside the state directory) — deepest first,
removes each (`rmdir` for directories, `unlink` otherwise, a logged warning
when the path no longer exists), unregisters each processed path unless its
removal raised, collects the in-project parents, and finally prunes now-empty parent
directories bottom-up.

The filesystem is modelled as finite sets of file and directory paths with
no symlinks; the only removal failure in this model is `rmdir` on a
non-empty directory (a permission-style `IOError` has no analogue here), and
`errs` counts exactly the `logger.error('Unable to delete ...')` events of
the main loop.  Python's `set()` iteration order for the unregistered files
is abstracted to first-occurrence order. -/

/-- A filesystem: the existing files and directories. -/
structure FS where
  files : List GPath
  dirs : List GPath
deriving DecidableEq, Repr

/-- Is `p` strictly below `base`? -/
def strictlyInside (base p : GPath) : Bool :=
  isRelativeTo p base && decide (p ≠ base)

/-- Does the file `p` exist? -/
def FS.isFile (fs : FS) (p : GPath) : Bool := decide (p ∈ fs.files)

/-- Does the directory `p` exist? -/
def FS.isDir (fs : FS) (p : GPath) : Bool := decide (p ∈ fs.dirs)

/-- Does the directory `p` have any entry (which makes `rmdir` raise)? -/
def FS.dirNonEmpty (fs : FS) (p : GPath) : Bool :=
  fs.files.any (fun q => strictlyInside p q) || fs.dirs.any (fun q => strictlyInside p q)

/-- Remove the file `p`. -/
def FS.removeFile (fs : FS) (p : GPath) : FS :=
  ⟨fs.files.filter (fun q => decide (q ≠ p)), fs.dirs⟩

/-- Remove the directory `p`. -/
def FS.removeDir (fs : FS) (p : GPath) : FS :=
  ⟨fs.files, fs.dirs.filter (fun q => decide (q ≠ p))⟩

/-- `config.project_state_directory(name)` = project directory / `.getrel`
(src/getrel/config.py:200). -/
def projectStateDir (pd : GPath) : GPath :=
  ⟨pd.absolute, pd.parts ++ [".getrel"]⟩

/-- `set(...)` deduplication, iteration order abstracted to first occurrence. -/
def dedupStr (l : List String) : List String :=
  l.foldl (fun acc s => if acc.contains s then acc else acc ++ [s]) []

/-- The project-relative strings of the files under the project directory and
outside the state directory (the `project_dir_files` set of
`GitHubProject.get_installed`, src/getrel/project.py:501-504). -/
def projectDirFileStrings (pd : GPath) (fs : FS) : List String :=
  dedupStr
    ((fs.files.filter
        (fun p => strictlyInside pd p && !(isRelativeTo p (projectStateDir pd)))).map
      (fun p => project_relative_fspath pd p))

/-- Embedding of `GitHubProject.get_installed` (src/getrel/project.py:499):
the registered paths, then the unknown project-directory files, as resolved
paths (`ProjectFile.path = resolve_path(file)`). -/
def get_installed (pd : GPath) (reg : List String) (fs : FS) : List GPath :=
  reg.map (fun s => resolve_path pd (mkPath s))
  ++ ((projectDirFileStrings pd fs).filter (fun s => !(reg.contains s))).map
      (fun s => resolve_path pd (mkPath s))

/-- The evolving state of the uninstall loop: registry, filesystem,
collected in-project parents, and the number of failed removals. -/
structure UState where
  reg : List String
  fs : FS
  parents : List GPath
  errs : Nat
deriving DecidableEq, Repr

/-- `parents.add(path.parent)` when the parent is inside the project
directory (src/getrel/project.py:517-518). -/
def addParent (pd : GPath) (parents : List GPath) (p : GPath) : List GPath :=
  if isRelativeTo (parentOf p) pd then
    (if parentOf p ∈ parents then parents else parents ++ [parentOf p])
  else parents

/-- One iteration of the uninstall loop (src/getrel/project.py:513-531):
record the parent, then `rmdir` a directory (failing, with an error, when it
is not empty), `unlink` an existing file, or log a warning for a missing
path; every non-failing branch unregisters the path. -/
def uninstallStep (pd : GPath) (st : UState) (p : GPath) : UState :=
  if st.fs.isDir p then
    (if st.fs.dirNonEmpty p then
      ⟨st.reg, st.fs, addParent pd st.parents p, st.errs + 1⟩
    else
      ⟨unregister_installed_file pd st.reg [p], st.fs.removeDir p,
        addParent pd st.parents p, st.errs⟩)
  else if st.fs.isFile p then
    ⟨unregister_installed_file pd st.reg [p], st.fs.removeFile p,
      addParent pd st.parents p, st.errs⟩
  else
    ⟨unregister_installed_file pd st.reg [p], st.fs,
      addParent pd st.parents p, st.errs⟩

/-- The main uninstall loop over `get_installed()` sorted deepest first. -/
def uninstallLoop (pd : GPath) (reg : List String) (fs : FS) : UState :=
  (sortDescBy (fun p => p.parts.length) (get_installed pd reg fs)).foldl
    (uninstallStep pd) ⟨reg, fs, [], 0⟩

/-- The bottom-up pruning of now-empty parent directories
(src/getrel/project.py:533-539); failures (non-empty directory, or a
non-directory path) are logged at info level and ignored. -/
def cleanupDirs (pd : GPath) (fs : FS) (parents : List GPath) : FS :=
  (sortDescBy (fun p => p.parts.length) parents).foldl
    (fun f p =>
      if (f.isFile p || f.isDir p) && decide (p ≠ pd) then
        (if f.isDir p && !(f.dirNonEmpty p) then f.removeDir p else f)
      else f)
    fs

/-- Embedding of `GitHubProject.uninstall` with `keep_assets=False`
(src/getrel/project.py:509-544): final registry, final filesystem, and the
number of failed removals in the main loop. -/
def uninstall (pd : GPath) (reg : List String) (fs : FS) :
    List String × FS × Nat :=
  ((uninstallLoop pd reg fs).reg,
   cleanupDirs pd (uninstallLoop pd reg fs).fs (uninstallLoop pd reg fs).parents,
   (uninstallLoop pd reg fs).errs)

/-- C9: claimed — two immediately consecutive `uninstall` calls produce no
errors, and the registry is empty after each of the two calls.  This fails
on the code: when a registered directory still contains an unregistered
subdirectory (here `/p/d` registered, containing `s/f`), the subdirectory is
not deleted before its parent because `rglob` entries that are directories
are excluded from `get_installed`; `rmdir('/p/d')` then fails, is logged as
an error, and the registry entry `d` is not unregistered, so the first call
errors and leaves a non-empty registry. -/
theorem uninstall_first_call_can_fail :
    (uninstall (mkPath "/p") ["d"]
        ⟨[mkPath "/p/d/s/f"], [mkPath "/p", mkPath "/p/d", mkPath "/p/d/s"]⟩).1
      = ["d"]
    ∧ (uninstall (mkPath "/p") ["d"]
        ⟨[mkPath "/p/d/s/f"], [mkPath "/p", mkPath "/p/d", mkPath "/p/d/s"]⟩).2.2
      = 1 := by
  decide

theorem resolve_path_idem (pd x : GPath) (hpd : pd.absolute = true) :
    resolve_path pd (resolve_path pd x) = resolve_path pd x := by
  unfold resolve_path
  by_cases hx : x.absolute = true
  · simp [hx]
  · simp only [hx, Bool.false_eq_true, if_false, hpd, if_true]

theorem project_relative_fspath_resolve (pd x : GPath) (hpd : pd.absolute = true) :
    project_relative_fspath pd (resolve_path pd x) = project_relative_fspath pd x := by
  unfold project_relative_fspath
  rw [resolve_path_idem pd x hpd]

theorem unregister_single_eq_erase (pd : GPath) (r : List String) (p : GPath) :
    unregister_installed_file pd r [p] = r.erase (project_relative_fspath pd p) := by
  unfold unregister_installed_file
  rw [List.foldl_cons, List.foldl_nil]
  by_cases h : project_relative_fspath pd p ∈ r
  · simp [h]
  · simp [h, List.erase_of_not_mem h]

theorem uninstallStep_errs_ge (pd : GPath) (st : UState) (p : GPath) :
    st.errs ≤ (uninstallStep pd st p).errs := by
  unfold uninstallStep
  split_ifs <;> simp

theorem uninstallLoop_errs_ge (pd : GPath) :
    ∀ (l : List GPath) (st : UState), st.errs ≤ (l.foldl (uninstallStep pd) st).errs := by
  intro l
  induction l with
  | nil => intro st; simp
  | cons p ps ih =>
    intro st
    rw [List.foldl_cons]
    exact le_trans (uninstallStep_errs_ge pd st p) (ih _)

theorem uninstallLoop_reg_of_no_error (pd : GPath) :
    ∀ (l : List GPath) (st : UState),
    (l.foldl (uninstallStep pd) st).errs = st.errs →
    (l.foldl (uninstallStep pd) st).reg
      = l.foldl (fun r p => r.erase (project_relative_fspath pd p)) st.reg := by
  intro l
  induction l with
  | nil => intro st _; rfl
  | cons p ps ih =>
    intro st herr
    rw [List.foldl_cons] at herr ⊢
    by_cases hd : st.fs.isDir p = true
    · by_cases hne : st.fs.dirNonEmpty p = true
      · exfalso
        have hstep : (uninstallStep pd st p).errs = st.errs + 1 := by
          unfold uninstallStep
          rw [if_pos hd, if_pos hne]
        have := uninstallLoop_errs_ge pd ps (uninstallStep pd st p)
        rw [hstep] at this
        omega
      · have hstep : uninstallStep pd st p
            = ⟨unregister_installed_file pd st.reg [p], st.fs.removeDir p,
               addParent pd st.parents p, st.errs⟩ := by
          unfold uninstallStep
          rw [if_pos hd, if_neg hne]
        rw [hstep] at herr ⊢
        rw [ih _ herr, unregister_single_eq_erase]
        rfl
    · by_cases hf : st.fs.isFile p = true
      · have hstep : uninstallStep pd st p
            = ⟨unregister_installed_file pd st.reg [p], st.fs.removeFile p,
               addParent pd st.parents p, st.errs⟩ := by
          unfold uninstallStep
          rw [if_neg hd, if_pos hf]
        rw [hstep] at herr ⊢
        rw [ih _ herr, unregister_single_eq_erase]
        rfl
      · have hstep : uninstallStep pd st p
            = ⟨unregister_installed_file pd st.reg [p], st.fs,
               addParent pd st.parents p, st.errs⟩ := by
          unfold uninstallStep
          rw [if_neg hd, if_neg hf]
        rw [hstep] at herr ⊢
        rw [ih _ herr, unregister_single_eq_erase]
        rfl

theorem uninstallStep_files_subset (pd : GPath) (st : UState) (p q : GPath)
    (h : q ∈ (uninstallStep pd st p).fs.files) : q ∈ st.fs.files := by
  unfold uninstallStep at h
  split_ifs at h
  · exact h
  · exact h
  · exact List.mem_of_mem_filter h
  · exact h

theorem uninstallStep_dirs_subset (pd : GPath) (st : UState) (p q : GPath)
    (h : q ∈ (uninstallStep pd st p).fs.dirs) : q ∈ st.fs.dirs := by
  unfold uninstallStep at h
  split_ifs at h
  · exact h
  · exact List.mem_of_mem_filter h
  · exact h
  · exact h

theorem uninstallLoop_files_subset (pd : GPath) :
    ∀ (l : List GPath) (st : UState) (q : GPath),
    q ∈ (l.foldl (uninstallStep pd) st).fs.files → q ∈ st.fs.files := by
  intro l
  induction l with
  | nil => intro st q h; exact h
  | cons p ps ih =>
    intro st q h
    rw [List.foldl_cons] at h
    exact uninstallStep_files_subset pd st p q (ih _ q h)

theorem uninstallLoop_processed_file_removed (pd : GPath) :
    ∀ (l : List GPath) (st : UState) (q : GPath),
    q ∈ l → q ∉ st.fs.dirs → q ∉ (l.foldl (uninstallStep pd) st).fs.files := by
  intro l
  induction l with
  | nil => intro st q h; simp at h
  | cons p ps ih =>
    intro st q hq hqd
    rw [List.foldl_cons]
    rcases List.mem_cons.mp hq with rfl | hq'
    · have hdq : st.fs.isDir q = false := by
        unfold FS.isDir
        simpa using hqd
      have hq1 : q ∉ (uninstallStep pd st q).fs.files := by
        unfold uninstallStep
        rw [hdq]
        simp only [Bool.false_eq_true, if_false]
        by_cases hf : st.fs.isFile q = true
        · rw [if_pos hf]
          intro hcontra
          have := (List.mem_filter.mp hcontra).2
          simp at this
        · rw [if_neg hf]
          intro hcontra
          unfold FS.isFile at hf
          simp at hf
          exact hf hcontra
      intro hcontra
      exact hq1 (uninstallLoop_files_subset pd ps _ q hcontra)
    · refine ih _ q hq' ?_
      intro hcontra
      exact hqd (uninstallStep_dirs_subset pd st p q hcontra)

theorem cleanupDirs_files (pd : GPath) (parents : List GPath) :
    ∀ fs : FS, (cleanupDirs pd fs parents).files = fs.files := by
  unfold cleanupDirs
  generalize sortDescBy (fun p => p.parts.length) parents = l
  induction l with
  | nil => intro fs; rfl
  | cons p ps ih =>
    intro fs
    rw [List.foldl_cons, ih]
    split_ifs <;> rfl

theorem dedupStr_mem (x : String) :
    ∀ l : List String, x ∈ dedupStr l ↔ x ∈ l := by
  unfold dedupStr
  suffices h : ∀ (l acc : List String),
      x ∈ l.foldl (fun acc s => if acc.contains s then acc else acc ++ [s]) acc
        ↔ x ∈ acc ∨ x ∈ l by
    intro l
    rw [h l []]
    simp
  intro l
  induction l with
  | nil => intro acc; simp
  | cons s ss ih =>
    intro acc
    rw [List.foldl_cons, ih]
    by_cases hc : acc.contains s = true
    · rw [if_pos hc]
      constructor
      · rintro (h | h)
        · exact Or.inl h
        · exact Or.inr (List.mem_cons_of_mem s h)
      · rintro (h | h)
        · exact Or.inl h
        · rcases List.mem_cons.mp h with rfl | h'
          · exact Or.inl (by simpa using hc)
          · exact Or.inr h'
    · rw [if_neg hc]
      constructor
      · rintro (h | h)
        · rcases List.mem_append.mp h with h' | h'
          · exact Or.inl h'
          · rcases List.mem_singleton.mp h' with rfl
            exact Or.inr (List.mem_cons_self _ _)
        · exact Or.inr (List.mem_cons_of_mem s h)
      · rintro (h | h)
        · exact Or.inl (List.mem_append_left _ h)
        · rcases List.mem_cons.mp h with rfl | h'
          · exact Or.inl (List.mem_append_right _ (List.mem_singleton.mpr rfl))
          · exact Or.inr h'

theorem count_foldl_erase (f : GPath → String) :
    ∀ (l : List GPath) (r0 : List String) (x : String),
    (l.foldl (fun r p => r.erase (f p)) r0).count x
      = r0.count x - l.countP (fun p => f p == x) := by
  intro l
  induction l with
  | nil => intro r0 x; simp
  | cons p ps ih =>
    intro r0 x
    rw [List.foldl_cons, ih, List.countP_cons]
    by_cases hp : (f p == x) = true
    · rw [hp]
      have hx : x = f p := (beq_iff_eq.mp hp).symm
      rw [List.count_erase, hx]
      simp only [beq_self_eq_true, if_pos]
      omega
    · have hp' : (f p == x) = false := by simpa using hp
      rw [hp', List.count_erase, hp']
      simp

theorem countP_congr_mem {α : Type} (p q : α → Bool) :
    ∀ l : List α, (∀ a ∈ l, p a = q a) → l.countP p = l.countP q := by
  intro l
  induction l with
  | nil => intro _; rfl
  | cons a as ih =>
    intro h
    rw [List.countP_cons, List.countP_cons, h a (List.mem_cons_self a as),
      ih (fun b hb => h b (List.mem_cons_of_mem a hb))]

/-- C9 amended: the claim holds provided the first `uninstall` reports no
removal error (the counterexample above forces this hypothesis) and the
state is well-formed — registry entries are canonical project-relative
strings, in-project files round-trip through the path representation, and no
path is both a file and a directory.  Then the registry is empty after the
first call, and an immediately following second `uninstall` finds nothing to
process, produces no errors, and leaves the registry empty. -/
theorem uninstall_twice_empty_registry (pd : GPath) (reg : List String) (fs : FS)
    (hpd : pd.absolute = true)
    (hcanon : ∀ s ∈ reg, project_relative_fspath pd (mkPath s) = s)
    (hround : ∀ q ∈ fs.files, strictlyInside pd q = true →
        isRelativeTo q (projectStateDir pd) = false →
        resolve_path pd (mkPath (project_relative_fspath pd q)) = q)
    (hdisj : ∀ q ∈ fs.files, q ∉ fs.dirs)
    (herr : (uninstall pd reg fs).2.2 = 0) :
    (uninstall pd reg fs).1 = []
    ∧ (uninstall pd [] (uninstall pd reg fs).2.1).2.2 = 0
    ∧ (uninstall pd [] (uninstall pd reg fs).2.1).1 = [] := by
  have herrL : (uninstallLoop pd reg fs).errs = 0 := herr
  have hloop : uninstallLoop pd reg fs
      = (sortDescBy (fun p => p.parts.length) (get_installed pd reg fs)).foldl
          (uninstallStep pd) ⟨reg, fs, [], 0⟩ := rfl
  have hreg : (uninstallLoop pd reg fs).reg
      = (sortDescBy (fun p => p.parts.length) (get_installed pd reg fs)).foldl
          (fun r p => r.erase (project_relative_fspath pd p)) reg := by
    rw [hloop]
    exact uninstallLoop_reg_of_no_error pd _ ⟨reg, fs, [], 0⟩ (by rw [← hloop]; exact herrL)
  have hcount : ∀ x, ((uninstallLoop pd reg fs).reg).count x = 0 := by
    intro x
    rw [hreg, count_foldl_erase (fun p => project_relative_fspath pd p)
      (sortDescBy (fun p => p.parts.length) (get_installed pd reg fs)) reg x]
    have hperm := sortDescBy_perm (fun p : GPath => p.parts.length) (get_installed pd reg fs)
    rw [hperm.countP_eq]
    have hsplit : (get_installed pd reg fs).countP
        (fun p => project_relative_fspath pd p == x)
        = (reg.map (fun s => resolve_path pd (mkPath s))).countP
            (fun p => project_relative_fspath pd p == x)
          + (((projectDirFileStrings pd fs).filter (fun s => !(reg.contains s))).map
              (fun s => resolve_path pd (mkPath s))).countP
            (fun p => project_relative_fspath pd p == x) := by
      unfold get_installed
      rw [List.countP_append]
    rw [hsplit]
    have hA : (reg.map (fun s => resolve_path pd (mkPath s))).countP
        (fun p => project_relative_fspath pd p == x) = reg.count x := by
      rw [List.countP_map]
      have hpt : ∀ s ∈ reg,
          ((fun p => project_relative_fspath pd p == x)
            ∘ (fun s => resolve_path pd (mkPath s))) s = (s == x) := by
        intro s hs
        show (project_relative_fspath pd (resolve_path pd (mkPath s)) == x) = (s == x)
        rw [project_relative_fspath_resolve pd (mkPath s) hpd, hcanon s hs]
      rw [countP_congr_mem _ _ reg hpt]
      rfl
    rw [hA]
    omega
  have hregnil : (uninstallLoop pd reg fs).reg = [] := by
    rcases hL : (uninstallLoop pd reg fs).reg with _ | ⟨y, ys⟩
    · rfl
    · exfalso
      have hy := hcount y
      rw [hL] at hy
      simp [List.count_cons] at hy
  have hfs1files : (uninstall pd reg fs).2.1.files = (uninstallLoop pd reg fs).fs.files :=
    cleanupDirs_files pd (uninstallLoop pd reg fs).parents (uninstallLoop pd reg fs).fs
  have hnofiles : ∀ q ∈ (uninstall pd reg fs).2.1.files,
      ¬(strictlyInside pd q = true ∧ isRelativeTo q (projectStateDir pd) = false) := by
    rintro q hq ⟨hin, hstate⟩
    rw [hfs1files] at hq
    have hq0 : q ∈ fs.files :=
      uninstallLoop_files_subset pd _ ⟨reg, fs, [], 0⟩ q hq
    have hresq : resolve_path pd (mkPath (project_relative_fspath pd q)) = q :=
      hround q hq0 hin hstate
    have hsmem : project_relative_fspath pd q ∈ projectDirFileStrings pd fs := by
      unfold projectDirFileStrings
      rw [dedupStr_mem]
      exact List.mem_map_of_mem _ (List.mem_filter.mpr ⟨hq0, by simp [hin, hstate]⟩)
    have hmemitems : q ∈ sortDescBy (fun p => p.parts.length) (get_installed pd reg fs) := by
      rw [mem_sortDescBy]
      unfold get_installed
      by_cases hs : reg.contains (project_relative_fspath pd q) = true
      · apply List.mem_append_left
        have hsreg : project_relative_fspath pd q ∈ reg := by simpa using hs
        rw [← hresq]
        exact List.mem_map_of_mem _ hsreg
      · apply List.mem_append_right
        rw [← hresq]
        apply List.mem_map_of_mem
        exact List.mem_filter.mpr ⟨hsmem, by simpa using hs⟩
    exact uninstallLoop_processed_file_removed pd _ ⟨reg, fs, [], 0⟩ q hmemitems
      (hdisj q hq0) hq
  have hgi : get_installed pd [] (uninstall pd reg fs).2.1 = [] := by
    unfold get_installed
    have hfilter : (uninstall pd reg fs).2.1.files.filter
        (fun p => strictlyInside pd p && !(isRelativeTo p (projectStateDir pd))) = [] := by
      rw [List.filter_eq_nil_iff]
      intro a ha hpa
      simp only [Bool.and_eq_true] at hpa
      rcases hpa with ⟨h1, h2⟩
      exact hnofiles a ha ⟨h1, by simpa using h2⟩
    unfold projectDirFileStrings
    rw [hfilter]
    rfl
  have hsecond : ∀ fs1 : FS, get_installed pd [] fs1 = [] →
      uninstall pd [] fs1 = ([], fs1, 0) := by
    intro fs1 h1
    unfold uninstall uninstallLoop
    rw [h1]
    rfl
  refine ⟨hregnil, ?_, ?_⟩
  · rw [hsecond _ hgi]
  · rw [hsecond _ hgi]

theorem uninstall_twice_empty_registry_witness :
    (uninstall (mkPath "/p") ["a"] ⟨[mkPath "/p/a"], [mkPath "/p"]⟩).1 = []
    ∧ (uninstall (mkPath "/p") []
        (uninstall (mkPath "/p") ["a"] ⟨[mkPath "/p/a"], [mkPath "/p"]⟩).2.1).2.2 = 0
    ∧ (uninstall (mkPath "/p") []
        (uninstall (mkPath "/p") ["a"] ⟨[mkPath "/p/a"], [mkPath "/p"]⟩).2.1).1 = [] :=
  uninstall_twice_empty_registry (mkPath "/p") ["a"] ⟨[mkPath "/p/a"], [mkPath "/p"]⟩
    (by decide) (by decide) (by decide) (by decide) (by decide)

end Getrel

